import Mathlib

/-!
Verification of the ring-queue engine (queue.c / queue.h) and its CLI wrapper
(cli.c, configure.h).

The C data type is

  struct Queue { unsigned begin; unsigned size; uint32_t array[QUEUE_MAX_LENGTH]; };

modelled below with Nat fields and a List Nat storage of length N
(N stands for QUEUE_MAX_LENGTH, which defaults to 10 but is configurable, so
every definition is parametrised by N).  Element values undergo no arithmetic
in the engine, so they are modelled as plain Nat.

C functions returning 0 / -1 (with an error message on stderr) are modelled
with Except QueueError; queue_find returns Option Nat.  queue_remove and
queue_merge guard their preconditions with C assert: queue_remove is modelled
as a total function used only under the documented precondition, and
queue_merge returns Option, where none models the failed assertion (a program
abort, not a recoverable typed error).

C for-loops of the shape for (i = a; i != b; ++i) are modelled by structural
recursion on b - i; under the asserted preconditions a <= b always holds, so
the != exit test coincides with <.

Scratch buffer of queue_merge: the source allocates it with
malloc(total_len), i.e. total_len BYTES, although the loops store total_len
full 32-bit values into it — an under-allocation by sizeof(uint32_t) that
makes every non-empty merge write past the buffer.  That byte-level fact is
captured by merge_scratch_alloc_bytes and mergeWriteIndices below.
mergeScratch (and hence the success branch of queue_merge) instead gives the
buffer the total_len full-width value slots that the spec's correction
mandates, so it denotes the intended, spec-corrected merge result rather
than the out-of-bounds execution of the code as written; theorems that
depend only on the begin / size fields of the merge result are unaffected
by this choice.
-/

namespace RingQueue

/-- Error kinds reported by the engine through its int return codes:
CapacityExceeded is the -1 of queue_push_back, Empty the -1 of
queue_pop_back / queue_pop_front. -/
inductive QueueError where
  | CapacityExceeded
  | Empty
deriving DecidableEq, Repr

/-- Model of struct Queue: begin and size are unsigned indices, array is the
fixed storage (kept as a list whose length is QUEUE_MAX_LENGTH = N in every
well-formed state). -/
structure Queue where
  begin : Nat
  size : Nat
  array : List Nat
deriving DecidableEq, Repr

/-- Well-formedness of a queue instance for capacity N: the two index
invariants of the spec plus the fixed storage length. -/
def WF (N : Nat) (q : Queue) : Prop :=
  q.begin < N ∧ q.size ≤ N ∧ q.array.length = N

instance (N : Nat) (q : Queue) : Decidable (WF N q) := by
  unfold WF; infer_instance

/-- Translation of queue_init: size = 0, begin = 0, storage zero-filled. -/
def queue_init (N : Nat) : Queue :=
  { begin := 0, size := 0, array := List.replicate N 0 }

/-- Translation of queue_push_back: reject when size = N, otherwise move
begin one slot to the left with wrap-around, store the value there and grow
size. -/
def queue_push_back (N : Nat) (q : Queue) (value : Nat) : Except QueueError Queue :=
  if q.size = N then
    .error .CapacityExceeded
  else
    let b := if q.begin = 0 then N - 1 else q.begin - 1
    .ok { begin := b, size := q.size + 1, array := q.array.set b value }

/-- Translation of queue_pop_back: reject when empty, otherwise read
array[begin], advance begin with wrap-around and shrink size. -/
def queue_pop_back (N : Nat) (q : Queue) : Except QueueError (Queue × Nat) :=
  if q.size = 0 then
    .error .Empty
  else
    let value := q.array.getD q.begin 0
    let b := if q.begin = N - 1 then 0 else q.begin + 1
    .ok ({ q with begin := b, size := q.size - 1 }, value)

/-- Translation of queue_get_value: array[(begin + index) % N]; the C assert
index < size is a documented precondition of the call sites. -/
def queue_get_value (N : Nat) (q : Queue) (index : Nat) : Nat :=
  q.array.getD ((q.begin + index) % N) 0

/-- Translation of queue_pop_front: reject when empty, otherwise read the
logical element at offset size - 1 and shrink size; begin is untouched. -/
def queue_pop_front (N : Nat) (q : Queue) : Except QueueError (Queue × Nat) :=
  if q.size = 0 then
    .error .Empty
  else
    .ok ({ q with size := q.size - 1 }, queue_get_value N q (q.size - 1))

/-- Translation of queue_find: first logical offset holding the value, none
models the -1 return. -/
def queue_find (N : Nat) (q : Queue) (value : Nat) : Option Nat :=
  (List.range q.size).find? (fun i => queue_get_value N q i == value)

/-- Recursion core of the shifting for-loop inside queue_remove: the first
argument is the number of remaining iterations, so the recursion is
structural and the function reduces inside the kernel. -/
def shiftLoopAux (N : Nat) : Nat → List Nat → Nat → List Nat
  | 0, arr, _ => arr
  | fuel + 1, arr, i =>
      shiftLoopAux N fuel (arr.set (i % N) (arr.getD ((i + 1) % N) 0)) (i + 1)

/-- Translation of the shifting for-loop inside queue_remove:
for (_i = i; _i != stop; ++_i) array[_i % N] = array[(_i + 1) % N].
Under the asserted precondition the counter starts at or below stop, so the
loop performs exactly stop - i iterations. -/
def shiftLoop (N : Nat) (arr : List Nat) (i stop : Nat) : List Nat :=
  shiftLoopAux N (stop - i) arr i

theorem shiftLoop_stop (N : Nat) (arr : List Nat) {i stop : Nat} (h : ¬ i < stop) :
    shiftLoop N arr i stop = arr := by
  unfold shiftLoop
  rw [show stop - i = 0 by omega]
  rfl

theorem shiftLoop_step (N : Nat) (arr : List Nat) {i stop : Nat} (h : i < stop) :
    shiftLoop N arr i stop
      = shiftLoop N (arr.set (i % N) (arr.getD ((i + 1) % N) 0)) (i + 1) stop := by
  unfold shiftLoop
  obtain ⟨k, hk⟩ : ∃ k, stop - i = k + 1 := ⟨stop - i - 1, by omega⟩
  rw [hk, show stop - (i + 1) = k by omega]
  rfl

/-- Translation of queue_remove: decrement size, then shift every slot from
circular position begin + index up to begin + new size one step leftwards.
The C assert index < size is a documented precondition of the call sites. -/
def queue_remove (N : Nat) (q : Queue) (index : Nat) : Queue :=
  let newSize := q.size - 1
  { q with size := newSize,
           array := shiftLoop N q.array (q.begin + index) (q.begin + newSize) }

/-- Recursion core of the interleaving for-loop of queue_merge; the first
argument is the number of remaining iterations. -/
def mergeLoop1Aux (N : Nat) (q1 q2 : Queue) : Nat → List Nat → Nat → List Nat
  | 0, a, _ => a
  | fuel + 1, a, i =>
      mergeLoop1Aux N q1 q2 fuel
        ((a.set (2 * i) (queue_get_value N q1 i)).set (2 * i + 1) (queue_get_value N q2 i))
        (i + 1)

/-- Translation of the interleaving for-loop of queue_merge:
for (i = 0; i != m; ++i) { a[2i] = get(q1, i); a[2i+1] = get(q2, i); }
where m is the size of the smaller queue; it performs m - i iterations from
counter value i. -/
def mergeLoop1 (N : Nat) (q1 q2 : Queue) (m : Nat) (a : List Nat) (i : Nat) : List Nat :=
  mergeLoop1Aux N q1 q2 (m - i) a i

theorem mergeLoop1_stop (N : Nat) (q1 q2 : Queue) {m : Nat} (a : List Nat)
    {i : Nat} (h : ¬ i < m) : mergeLoop1 N q1 q2 m a i = a := by
  unfold mergeLoop1
  rw [show m - i = 0 by omega]
  rfl

theorem mergeLoop1_step (N : Nat) (q1 q2 : Queue) {m : Nat} (a : List Nat)
    {i : Nat} (h : i < m) :
    mergeLoop1 N q1 q2 m a i
      = mergeLoop1 N q1 q2 m
          ((a.set (2 * i) (queue_get_value N q1 i)).set (2 * i + 1) (queue_get_value N q2 i))
          (i + 1) := by
  unfold mergeLoop1
  obtain ⟨k, hk⟩ : ∃ k, m - i = k + 1 := ⟨m - i - 1, by omega⟩
  rw [hk, show m - (i + 1) = k by omega]
  rfl

/-- Recursion core of the tail for-loop of queue_merge; the first argument is
the number of remaining iterations. -/
def mergeLoop2Aux (N : Nat) (maxq : Queue) (m : Nat) : Nat → List Nat → Nat → List Nat
  | 0, a, _ => a
  | fuel + 1, a, i =>
      mergeLoop2Aux N maxq m fuel (a.set (m + i) (queue_get_value N maxq i)) (i + 1)

/-- Translation of the tail for-loop of queue_merge:
for (i = m; i != M; ++i) a[m + i] = get(maxq, i); where m / M are the sizes
of the smaller / larger queue; it performs M - i iterations from counter
value i. -/
def mergeLoop2 (N : Nat) (maxq : Queue) (m M : Nat) (a : List Nat) (i : Nat) : List Nat :=
  mergeLoop2Aux N maxq m (M - i) a i

theorem mergeLoop2_stop (N : Nat) (maxq : Queue) (m : Nat) {M : Nat} (a : List Nat)
    {i : Nat} (h : ¬ i < M) : mergeLoop2 N maxq m M a i = a := by
  unfold mergeLoop2
  rw [show M - i = 0 by omega]
  rfl

theorem mergeLoop2_step (N : Nat) (maxq : Queue) (m : Nat) {M : Nat} (a : List Nat)
    {i : Nat} (h : i < M) :
    mergeLoop2 N maxq m M a i
      = mergeLoop2 N maxq m M (a.set (m + i) (queue_get_value N maxq i)) (i + 1) := by
  unfold mergeLoop2
  obtain ⟨k, hk⟩ : ∃ k, M - i = k + 1 := ⟨M - i - 1, by omega⟩
  rw [hk, show M - (i + 1) = k by omega]
  rfl

/-- Contents of the merge scratch buffer after both loops of queue_merge have
run, ASSUMING the buffer holds total_len full-width value slots as the
spec's correction mandates.  The source allocates only malloc(total_len) =
total_len BYTES (see merge_scratch_alloc_bytes), so the code as written
stores past its allocation on every non-empty merge; this definition
therefore models the intended, spec-corrected merge, not that out-of-bounds
execution.  Every slot below total_len is written by exactly one loop
iteration, so the initial buffer contents never survive; they are modelled
as zeros. -/
def mergeScratch (N : Nat) (q1 q2 : Queue) : List Nat :=
  let minq := if q1.size < q2.size then q1 else q2
  let maxq := if q1.size ≥ q2.size then q1 else q2
  let a0 : List Nat := List.replicate (q1.size + q2.size) 0
  mergeLoop2 N maxq minq.size maxq.size (mergeLoop1 N q1 q2 minq.size a0 0) minq.size

/-- Translation of queue_merge.  The C function returns void and guards its
precondition with assert(total_len <= QUEUE_MAX_LENGTH); none models that
failed assertion (an abort of the process, not a recoverable typed error).
On success the scratch buffer is memcpy-ed over the first total_len slots of
queue_into's storage, begin is reset to 0, size becomes total_len, and the
second queue's size is cleared while its storage stays as it was.  The
scratch is mergeScratch, i.e. the spec-corrected full-width buffer: because
the source under-allocates it (malloc(total_len) bytes), the stored values
of the real merge are not defined behaviour, and this function denotes the
intended result; its begin / size / other.size outcomes do not depend on the
scratch contents. -/
def queue_merge (N : Nat) (q1 q2 : Queue) : Option (Queue × Queue) :=
  let total := q1.size + q2.size
  if total ≤ N then
    let scratch := mergeScratch N q1 q2
    some ({ begin := 0, size := total, array := scratch.take total ++ q1.array.drop total },
          { q2 with size := 0 })
  else
    none

/-- Model of memcpy(dst + off, src, src.length * 4) on value lists: overwrite
the slots [off, off + src.length) of dst with src. -/
def memcpy_into (dst : List Nat) (off : Nat) (src : List Nat) : List Nat :=
  dst.take off ++ src ++ dst.drop (off + src.length)

/-- Translation of queue_copy_to: one memcpy when the logical range is
contiguous, otherwise two runs, first [begin, N) and then the wrapped
remainder [0, second_portion_len). The queue itself is read-only (const in
the C signature); only the destination is produced. -/
def queue_copy_to (N : Nat) (q : Queue) (destination : List Nat) : List Nat :=
  if q.begin + q.size ≤ N then
    memcpy_into destination 0 ((q.array.drop q.begin).take q.size)
  else
    let first_portion_len := N - q.begin
    let second_portion_len := q.size + q.begin - N
    memcpy_into
      (memcpy_into destination 0 ((q.array.drop q.begin).take first_portion_len))
      first_portion_len
      (q.array.take second_portion_len)

/-- Logical sequence of a queue: the values at logical offsets 0 .. size-1,
exactly what the spec calls the queue's contents. -/
def toList (N : Nat) (q : Queue) : List Nat :=
  (List.range q.size).map (queue_get_value N q)

/-- Translation of QUEUE_MODE from configure.h: FIFO = 1, LIFO = 2 (default
LIFO). -/
inductive QueueMode where
  | FIFO
  | LIFO
deriving DecidableEq, Repr

/-- Translation of the preprocessor dispatch inside cli_dequeue: in FIFO mode
the CLI calls queue_pop_back, in LIFO mode queue_pop_front. -/
def cli_dequeue_pop (N : Nat) (mode : QueueMode) (q : Queue) :
    Except QueueError (Queue × Nat) :=
  match mode with
  | QueueMode.FIFO => queue_pop_back N q
  | QueueMode.LIFO => queue_pop_front N q

/-- Translation of cli_merge_queues: the CLI refuses (returning -1, modelled
as none) whenever the combined size is at least QUEUE_MAX_LENGTH, and only
otherwise calls queue_merge. -/
def cli_merge_queues (N : Nat) (q0 q1 : Queue) : Option (Queue × Queue) :=
  if q0.size + q1.size ≥ N then
    none
  else
    queue_merge N q0 q1

/-- Size in bytes of the scratch allocation performed by queue_merge: the C
source reads malloc(total_len), i.e. total_len bytes, not
total_len * sizeof(uint32_t). -/
def merge_scratch_alloc_bytes (q1 q2 : Queue) : Nat :=
  q1.size + q2.size

/-- Value-slot indices written into the scratch buffer by the two loops of
queue_merge: 2i and 2i+1 for i below the smaller size, and min.size + i for i
from the smaller to the larger size.  Each uint32_t write at slot j occupies
bytes [4j, 4j+4) of the allocation. -/
def mergeWriteIndices (q1 q2 : Queue) : List Nat :=
  let minq := if q1.size < q2.size then q1 else q2
  let maxq := if q1.size ≥ q2.size then q1 else q2
  ((List.range minq.size).flatMap (fun i => [2 * i, 2 * i + 1])) ++
    ((List.range' minq.size (maxq.size - minq.size)).map (fun i => minq.size + i))

/-! Helper lemmas about modular index arithmetic and list access. -/

/-- Distinct numbers less than a window of width N apart have distinct
residues mod N. -/
theorem mod_ne_of_window (N a b : Nat) (hab : a < b) (hsub : b - a < N) :
    a % N ≠ b % N := by
  intro h
  have hmod : a ≡ b [MOD N] := h
  rw [Nat.modEq_iff_dvd' hab.le] at hmod
  have := Nat.le_of_dvd (by omega) hmod
  omega

theorem getD_set_self (l : List Nat) (i v : Nat) (h : i < l.length) :
    (l.set i v).getD i 0 = v := by
  rw [List.getD_eq_getElem _ _ (by simpa using h)]
  exact List.getElem_set_self _

theorem getD_set_ne (l : List Nat) (i j : Nat) (h : i ≠ j) (v : Nat) :
    (l.set i v).getD j 0 = l.getD j 0 := by
  rw [List.getD_eq_getElem?_getD, List.getD_eq_getElem?_getD,
    List.getElem?_set_ne h]

theorem length_toList (N : Nat) (q : Queue) : (toList N q).length = q.size := by
  simp [toList]

theorem getElem_toList (N : Nat) (q : Queue) (i : Nat) (h : i < (toList N q).length) :
    (toList N q)[i] = queue_get_value N q i := by
  simp [toList]

theorem getD_toList (N : Nat) (q : Queue) {i : Nat} (h : i < q.size) :
    (toList N q).getD i 0 = queue_get_value N q i := by
  rw [List.getD_eq_getElem _ _ (by simpa [length_toList] using h)]
  exact getElem_toList N q i _

/-! Characterisation of push / pop on the logical sequence. -/

/-- queue_push_back below capacity succeeds and prepends the value to the
logical sequence (the new element gets logical offset 0). -/
theorem queue_push_back_ok (N : Nat) (q : Queue) (v : Nat)
    (hwf : WF N q) (hlt : q.size < N) :
    ∃ q', queue_push_back N q v = .ok q' ∧ WF N q' ∧
      toList N q' = v :: toList N q ∧ q'.size = q.size + 1 := by
  obtain ⟨hb, hsz, hlen⟩ := hwf
  have hN : 0 < N := Nat.lt_of_le_of_lt (Nat.zero_le _) hb
  have hbN : (if q.begin = 0 then N - 1 else q.begin - 1) < N := by
    split <;> omega
  refine ⟨{ begin := if q.begin = 0 then N - 1 else q.begin - 1,
            size := q.size + 1,
            array := q.array.set (if q.begin = 0 then N - 1 else q.begin - 1) v },
    ?_, ⟨hbN, by show q.size + 1 ≤ N; omega, by show (q.array.set _ v).length = N; simp [hlen]⟩,
    ?_, rfl⟩
  · simp [queue_push_back, Nat.ne_of_lt hlt]
  · apply List.ext_getElem
    · simp [toList]
    · intro n h1 h2
      rw [getElem_toList]
      rcases n with _ | i
      · have hmod : ((if q.begin = 0 then N - 1 else q.begin - 1) + 0) % N
            = (if q.begin = 0 then N - 1 else q.begin - 1) := by
          rw [Nat.add_zero]; exact Nat.mod_eq_of_lt hbN
        simp only [queue_get_value, hmod, List.getElem_cons_zero]
        refine getD_set_self q.array _ v ?_
        omega
      · have hi : i < q.size := by
          simpa [toList] using h2
        have hgoal : (q.array.set (if q.begin = 0 then N - 1 else q.begin - 1) v).getD
            (((if q.begin = 0 then N - 1 else q.begin - 1) + (i + 1)) % N) 0
            = queue_get_value N q i := by
          by_cases hb0 : q.begin = 0
          · have h1' : (if q.begin = 0 then N - 1 else q.begin - 1) = N - 1 := by
              simp [hb0]
            have h2' : N - 1 + (i + 1) = i + N := by omega
            have h3' : (i + N) % N = i := by
              rw [Nat.add_mod_right]; exact Nat.mod_eq_of_lt (by omega)
            rw [h1', h2', h3', getD_set_ne q.array (N - 1) i (by omega) v,
              queue_get_value, hb0, Nat.zero_add, Nat.mod_eq_of_lt (by omega)]
          · have h1' : (if q.begin = 0 then N - 1 else q.begin - 1) = q.begin - 1 := by
              simp [hb0]
            have h2' : q.begin - 1 + (i + 1) = q.begin + i := by omega
            have hne : q.begin - 1 ≠ (q.begin + i) % N := by
              have hw := mod_ne_of_window N (q.begin - 1) (q.begin + i)
                (by omega) (by omega)
              rwa [Nat.mod_eq_of_lt (show q.begin - 1 < N by omega)] at hw
            rw [h1', h2', getD_set_ne q.array (q.begin - 1) ((q.begin + i) % N) hne v,
              queue_get_value]
        rw [List.getElem_cons_succ, getElem_toList N q i (by simpa [toList] using hi)]
        simpa only [queue_get_value] using hgoal

/-- queue_pop_back on a non-empty queue succeeds, returns the logical head
(offset 0, the most recently pushed value) and keeps the rest of the logical
sequence. -/
theorem queue_pop_back_ok (N : Nat) (q : Queue) (hwf : WF N q) (hs : 0 < q.size) :
    ∃ q' v, queue_pop_back N q = .ok (q', v) ∧ WF N q' ∧
      toList N q = v :: toList N q' ∧ q'.size = q.size - 1 := by
  obtain ⟨hb, hsz, hlen⟩ := hwf
  have hN : 0 < N := Nat.lt_of_le_of_lt (Nat.zero_le _) hb
  have hbN : (if q.begin = N - 1 then 0 else q.begin + 1) < N := by
    split <;> omega
  refine ⟨{ q with begin := (if q.begin = N - 1 then 0 else q.begin + 1),
                   size := q.size - 1 },
    q.array.getD q.begin 0, ?_, ⟨hbN, by show q.size - 1 ≤ N; omega, hlen⟩, ?_, rfl⟩
  · simp [queue_pop_back, Nat.ne_of_gt hs]
  · apply List.ext_getElem
    · simp [toList]; omega
    · intro n h1 h2
      rw [getElem_toList]
      rcases n with _ | i
      · simp only [List.getElem_cons_zero, queue_get_value, Nat.add_zero,
          Nat.mod_eq_of_lt hb]
      · have hi : i < q.size - 1 := by
          simp only [toList, List.length_cons, List.length_map,
            List.length_range] at h2
          omega
        have hmod : ((if q.begin = N - 1 then 0 else q.begin + 1) + i) % N
            = (q.begin + (i + 1)) % N := by
          by_cases hb1 : q.begin = N - 1
          · have : q.begin + (i + 1) = i + N := by omega
            rw [this, Nat.add_mod_right, if_pos hb1, Nat.zero_add]
          · rw [if_neg hb1]; ring_nf
        rw [List.getElem_cons_succ, getElem_toList]
        simp only [queue_get_value, hmod]

/-- queue_pop_front on a non-empty queue succeeds, returns the logical last
element (offset size - 1, the oldest surviving pushed value), keeps begin and
the storage, and drops that last element from the logical sequence. -/
theorem queue_pop_front_ok (N : Nat) (q : Queue) (hwf : WF N q) (hs : 0 < q.size) :
    ∃ q' v, queue_pop_front N q = .ok (q', v) ∧ WF N q' ∧
      toList N q = toList N q' ++ [v] ∧ q'.size = q.size - 1 ∧
      q'.begin = q.begin ∧ q'.array = q.array := by
  obtain ⟨hb, hsz, hlen⟩ := hwf
  refine ⟨{ q with size := q.size - 1 }, queue_get_value N q (q.size - 1),
    ?_, ⟨hb, by show q.size - 1 ≤ N; omega, hlen⟩, ?_, rfl, rfl, rfl⟩
  · simp [queue_pop_front, Nat.ne_of_gt hs]
  · have hrange : List.range q.size = List.range (q.size - 1) ++ [q.size - 1] := by
      conv_lhs => rw [show q.size = (q.size - 1) + 1 by omega]
      exact List.range_succ _
    rw [toList, hrange, List.map_append]
    rfl

theorem WF_queue_init (N : Nat) (hN : 0 < N) : WF N (queue_init N) :=
  ⟨hN, Nat.zero_le N, by simp [queue_init]⟩

theorem toList_queue_init (N : Nat) : toList N (queue_init N) = [] := by
  simp [toList, queue_init]

/-! Iterated pushes and pops, as the CLI performs them one call per process
invocation. -/

/-- Sequential queue_push_back calls, stopping at the first failure. -/
def pushList (N : Nat) (q : Queue) : List Nat → Except QueueError Queue
  | [] => .ok q
  | v :: vs => (queue_push_back N q v).bind (fun q' => pushList N q' vs)

/-- Sequential queue_pop_back calls, collecting the returned values in call
order. -/
def popBackN (N : Nat) (q : Queue) : Nat → Except QueueError (List Nat × Queue)
  | 0 => .ok ([], q)
  | n + 1 => (queue_pop_back N q).bind (fun p =>
      (popBackN N p.1 n).map (fun r => (p.2 :: r.1, r.2)))

/-- Sequential queue_pop_front calls, collecting the returned values in call
order. -/
def popFrontN (N : Nat) (q : Queue) : Nat → Except QueueError (List Nat × Queue)
  | 0 => .ok ([], q)
  | n + 1 => (queue_pop_front N q).bind (fun p =>
      (popFrontN N p.1 n).map (fun r => (p.2 :: r.1, r.2)))

theorem pushList_ok (N : Nat) (vs : List Nat) : ∀ q : Queue, WF N q →
    q.size + vs.length ≤ N →
    ∃ q', pushList N q vs = .ok q' ∧ WF N q' ∧
      toList N q' = vs.reverse ++ toList N q ∧ q'.size = q.size + vs.length := by
  induction vs with
  | nil => exact fun q hwf _ => ⟨q, rfl, hwf, by simp, by simp⟩
  | cons v vs ih =>
    intro q hwf hle
    simp only [List.length_cons] at hle
    obtain ⟨q1, hpush, hwf1, hlist1, hsz1⟩ :=
      queue_push_back_ok N q v hwf (by omega)
    obtain ⟨q', hrest, hwf', hlist', hsz'⟩ := ih q1 hwf1 (by omega)
    refine ⟨q', ?_, hwf', ?_, ?_⟩
    · simp [pushList, hpush, hrest, Except.bind]
    · rw [hlist', hlist1, List.reverse_cons]
      simp
    · simp only [List.length_cons]
      omega

theorem popBackN_ok (N : Nat) (n : Nat) : ∀ q : Queue, WF N q → n ≤ q.size →
    ∃ q', popBackN N q n = .ok ((toList N q).take n, q') ∧ WF N q' ∧
      toList N q' = (toList N q).drop n ∧ q'.size = q.size - n := by
  induction n with
  | zero => exact fun q hwf _ => ⟨q, by simp [popBackN], hwf, by simp, by simp⟩
  | succ n ih =>
    intro q hwf hle
    obtain ⟨q1, v, hpop, hwf1, hlist, hsz⟩ := queue_pop_back_ok N q hwf (by omega)
    obtain ⟨q', hrest, hwf', hlist', hsz'⟩ := ih q1 hwf1 (by omega)
    refine ⟨q', ?_, hwf', ?_, ?_⟩
    · rw [hlist]
      simp [popBackN, hpop, hrest, Except.bind, Except.map]
    · rw [hlist', hlist]
      simp
    · omega

theorem popFrontN_ok (N : Nat) (n : Nat) : ∀ q : Queue, WF N q → n ≤ q.size →
    ∃ q', popFrontN N q n = .ok ((toList N q).reverse.take n, q') ∧ WF N q' ∧
      toList N q' = (toList N q).take (q.size - n) ∧ q'.size = q.size - n ∧
      q'.begin = q.begin := by
  induction n with
  | zero =>
    intro q hwf _
    refine ⟨q, by simp [popFrontN], hwf, ?_, by simp, rfl⟩
    rw [Nat.sub_zero, ← length_toList N q, List.take_length]
  | succ n ih =>
    intro q hwf hle
    obtain ⟨q1, v, hpop, hwf1, hlist, hsz, hbeg, _⟩ :=
      queue_pop_front_ok N q hwf (by omega)
    obtain ⟨q', hrest, hwf', hlist', hsz', hbeg'⟩ := ih q1 hwf1 (by omega)
    have hrev : (toList N q).reverse = v :: (toList N q1).reverse := by
      rw [hlist, List.reverse_append]
      rfl
    refine ⟨q', ?_, hwf', ?_, by omega, by rw [hbeg', hbeg]⟩
    · rw [hrev]
      simp [popFrontN, hpop, hrest, Except.bind, Except.map]
    · rw [hlist', hlist]
      have h1 : (toList N q1).length = q.size - 1 := by
        rw [length_toList, hsz]
      rw [List.take_append_of_le_length (by omega)]
      congr 1
      omega

/-- C7: starting from an empty queue, pushing v1..vk (k ≤ N) via push_back
and then calling pop_back k times succeeds at every step and returns
vk, v(k-1), ..., v1 — the reverse of insertion order. -/
theorem push_popback_lifo_roundtrip (N : Nat) (vs : List Nat)
    (hN : 0 < N) (hk : vs.length ≤ N) :
    ∃ q q', pushList N (queue_init N) vs = .ok q ∧
      popBackN N q vs.length = .ok (vs.reverse, q') ∧ toList N q' = [] := by
  obtain ⟨q, hpush, hwf, hlist, hsz⟩ := pushList_ok N vs (queue_init N)
    (WF_queue_init N hN) (by simpa [queue_init] using hk)
  simp only [queue_init] at hsz
  have hlist0 : toList N q = vs.reverse := by
    rw [hlist, toList_queue_init, List.append_nil]
  obtain ⟨q', hpop, hwf', hlist', hsz'⟩ := popBackN_ok N vs.length q hwf (by omega)
  have htake : (toList N q).take vs.length = vs.reverse := by
    rw [hlist0, ← List.length_reverse, List.take_length]
  rw [htake] at hpop
  refine ⟨q, q', hpush, hpop, ?_⟩
  rw [hlist', hlist0, ← List.length_reverse, List.drop_length]

/-- C8: starting from an empty queue, pushing v1..vk (k ≤ N) via push_back
and then calling pop_front k times succeeds at every step and returns
v1, v2, ..., vk in insertion order, and every pop_front leaves begin
unchanged. -/
theorem push_popfront_fifo_roundtrip (N : Nat) (vs : List Nat)
    (hN : 0 < N) (hk : vs.length ≤ N) :
    ∃ q, pushList N (queue_init N) vs = .ok q ∧
      (∀ j, j ≤ vs.length →
        ∃ q', popFrontN N q j = .ok (vs.take j, q') ∧ q'.begin = q.begin) ∧
      (∃ q', popFrontN N q vs.length = .ok (vs, q') ∧ toList N q' = [] ∧
        q'.begin = q.begin) := by
  obtain ⟨q, hpush, hwf, hlist, hsz⟩ := pushList_ok N vs (queue_init N)
    (WF_queue_init N hN) (by simpa [queue_init] using hk)
  simp only [queue_init] at hsz
  have hlist0 : toList N q = vs.reverse := by
    rw [hlist, toList_queue_init, List.append_nil]
  have hrev : (toList N q).reverse = vs := by rw [hlist0, List.reverse_reverse]
  refine ⟨q, hpush, ?_, ?_⟩
  · intro j hj
    obtain ⟨q', hpop, hwf', hlist', hsz', hbeg'⟩ :=
      popFrontN_ok N j q hwf (by omega)
    rw [hrev] at hpop
    exact ⟨q', hpop, hbeg'⟩
  · obtain ⟨q', hpop, hwf', hlist', hsz', hbeg'⟩ :=
      popFrontN_ok N vs.length q hwf (by omega)
    rw [hrev, List.take_length] at hpop
    refine ⟨q', hpop, ?_, hbeg'⟩
    rw [hlist']
    have : q.size - vs.length = 0 := by omega
    rw [this, List.take_zero]

/-- Witness for C7 at N = 10, vs = [1, 2, 3]. -/
theorem push_popback_lifo_roundtrip_witness :
    (0 < 10 ∧ ([1, 2, 3] : List Nat).length ≤ 10) ∧
      (∃ q q', pushList 10 (queue_init 10) [1, 2, 3] = .ok q ∧
        popBackN 10 q ([1, 2, 3] : List Nat).length
          = .ok (([1, 2, 3] : List Nat).reverse, q') ∧ toList 10 q' = []) :=
  ⟨⟨by decide, by decide⟩,
    push_popback_lifo_roundtrip 10 [1, 2, 3] (by decide) (by decide)⟩

/-- Witness for C8 at N = 10, vs = [1, 2, 3]. -/
theorem push_popfront_fifo_roundtrip_witness :
    (0 < 10 ∧ ([1, 2, 3] : List Nat).length ≤ 10) ∧
      (∃ q, pushList 10 (queue_init 10) [1, 2, 3] = .ok q ∧
        (∀ j, j ≤ ([1, 2, 3] : List Nat).length →
          ∃ q', popFrontN 10 q j = .ok (([1, 2, 3] : List Nat).take j, q') ∧
            q'.begin = q.begin) ∧
        (∃ q', popFrontN 10 q ([1, 2, 3] : List Nat).length = .ok ([1, 2, 3], q') ∧
          toList 10 q' = [] ∧ q'.begin = q.begin)) :=
  ⟨⟨by decide, by decide⟩,
    push_popfront_fifo_roundtrip 10 [1, 2, 3] (by decide) (by decide)⟩

/-! Characterisation of the queue_remove shifting loop. -/

theorem shiftLoop_length (N : Nat) : ∀ (k i : Nat) (arr : List Nat) (stop : Nat),
    stop - i ≤ k → (shiftLoop N arr i stop).length = arr.length := by
  intro k
  induction k with
  | zero =>
    intro i arr stop hk
    rw [shiftLoop_stop N arr (by omega)]
  | succ k ih =>
    intro i arr stop hk
    by_cases h : i < stop
    · rw [shiftLoop_step N arr h, ih (i + 1) _ stop (by omega), List.length_set]
    · rw [shiftLoop_stop N arr h]

/-- Slots whose circular position is hit by no loop counter value keep their
contents. -/
theorem shiftLoop_getD_ne (N : Nat) : ∀ (k i : Nat) (arr : List Nat) (stop j : Nat),
    stop - i ≤ k →
    (∀ m, i ≤ m → m < stop → m % N ≠ j) →
    (shiftLoop N arr i stop).getD j 0 = arr.getD j 0 := by
  intro k
  induction k with
  | zero =>
    intro i arr stop j hk _
    rw [shiftLoop_stop N arr (by omega)]
  | succ k ih =>
    intro i arr stop j hk hm
    by_cases h : i < stop
    · rw [shiftLoop_step N arr h,
        ih (i + 1) _ stop j (by omega) (fun m h1 h2 => hm m (by omega) h2)]
      exact getD_set_ne arr (i % N) j (hm i (Nat.le_refl i) h) _
    · rw [shiftLoop_stop N arr h]

/-- Slots at circular position m for a loop counter value m in [i, stop)
receive the original value of circular position m + 1, provided the counter
window is shorter than N so that no two counter values collide mod N. -/
theorem shiftLoop_getD_shift (N : Nat) : ∀ (k i : Nat) (arr : List Nat) (stop m : Nat),
    stop - i ≤ k → arr.length = N → stop - i < N →
    i ≤ m → m < stop →
    (shiftLoop N arr i stop).getD (m % N) 0 = arr.getD ((m + 1) % N) 0 := by
  intro k
  induction k with
  | zero =>
    intro i arr stop m hk _ _ him hms
    omega
  | succ k ih =>
    intro i arr stop m hk hlen hwin him hms
    have h : i < stop := by omega
    have hN : 0 < N := by omega
    rw [shiftLoop_step N arr h]
    rcases Nat.eq_or_lt_of_le him with heq | hlt
    · have hmi : m = i := heq.symm
      subst hmi
      rw [shiftLoop_getD_ne N k (m + 1) _ stop (m % N) (by omega) ?_]
      · exact getD_set_self arr (m % N) _ (by rw [hlen]; exact Nat.mod_lt _ hN)
      · intro m' h1 h2
        exact (mod_ne_of_window N m m' (by omega) (by omega)).symm
    · rw [ih (i + 1) _ stop m (by omega) (by rw [List.length_set]; exact hlen)
        (by omega) (by omega) hms]
      exact getD_set_ne arr (i % N) ((m + 1) % N)
        (mod_ne_of_window N i (m + 1) (by omega) (by omega)) _

/-- C4: queue_remove deletes the logical element at a valid offset by
shifting each later element one circular position towards the front (slot
begin + k takes the old value of slot begin + k + 1 for k from the offset to
the new size - 1), decrements size, leaves begin untouched and preserves the
relative order of the remaining elements. -/
theorem queue_remove_spec (N : Nat) (q : Queue) (index : Nat)
    (hwf : WF N q) (hidx : index < q.size) :
    (queue_remove N q index).begin = q.begin ∧
    (queue_remove N q index).size = q.size - 1 ∧
    (∀ k, index ≤ k → k < q.size - 1 →
      (queue_remove N q index).array.getD ((q.begin + k) % N) 0
        = q.array.getD ((q.begin + k + 1) % N) 0) ∧
    toList N (queue_remove N q index)
      = (toList N q).take index ++ (toList N q).drop (index + 1) := by
  obtain ⟨hb, hsz, hlen⟩ := hwf
  have hN : 0 < N := by omega
  have hshift : ∀ k, index ≤ k → k < q.size - 1 →
      (queue_remove N q index).array.getD ((q.begin + k) % N) 0
        = q.array.getD ((q.begin + k + 1) % N) 0 := by
    intro k hk1 hk2
    show (shiftLoop N q.array (q.begin + index) (q.begin + (q.size - 1))).getD
      ((q.begin + k) % N) 0 = q.array.getD ((q.begin + k + 1) % N) 0
    have := shiftLoop_getD_shift N (q.begin + (q.size - 1) - (q.begin + index))
      (q.begin + index) q.array (q.begin + (q.size - 1)) (q.begin + k)
      (Nat.le_refl _) hlen (by omega) (by omega) (by omega)
    simpa [Nat.add_assoc] using this
  refine ⟨rfl, rfl, hshift, ?_⟩
  apply List.ext_getElem
  · simp only [toList, List.length_map, List.length_range, List.length_append,
      List.length_take, List.length_drop, queue_remove]
    omega
  · intro o h1 h2
    have ho : o < q.size - 1 := by
      simpa [toList] using h1
    rw [getElem_toList]
    by_cases hcase : o < index
    · rw [List.getElem_append_left (by simp [length_toList]; omega),
        List.getElem_take, getElem_toList]
      show (shiftLoop N q.array (q.begin + index) (q.begin + (q.size - 1))).getD
        ((q.begin + o) % N) 0 = queue_get_value N q o
      rw [shiftLoop_getD_ne N (q.begin + (q.size - 1) - (q.begin + index))
        (q.begin + index) q.array (q.begin + (q.size - 1)) ((q.begin + o) % N)
        (Nat.le_refl _) ?_]
      · rfl
      · intro m hm1 hm2
        exact (mod_ne_of_window N (q.begin + o) m (by omega) (by omega)).symm
    · rw [List.getElem_append_right (by simp [length_toList]; omega),
        List.getElem_drop, getElem_toList]
      have hkey := hshift o (by omega) ho
      have harith : index + 1 + (o - (List.take index (toList N q)).length) = o + 1 := by
        simp only [List.length_take, length_toList]
        omega
      rw [harith]
      show (queue_remove N q index).array.getD ((q.begin + o) % N) 0
        = queue_get_value N q (o + 1)
      rw [hkey]
      show q.array.getD ((q.begin + o + 1) % N) 0
        = q.array.getD ((q.begin + (o + 1)) % N) 0
      rw [Nat.add_assoc]

/-- Witness for C4 at N = 10, queue [1, 2, 3, 4], offset 3; the extra final
conjuncts check the spec example: remove(3) gives [1, 2, 3] and a subsequent
remove(0) gives [2, 3]. -/
theorem queue_remove_spec_witness :
    (WF 10 ⟨0, 4, [1, 2, 3, 4, 0, 0, 0, 0, 0, 0]⟩ ∧ 3 < 4) ∧
      ((queue_remove 10 ⟨0, 4, [1, 2, 3, 4, 0, 0, 0, 0, 0, 0]⟩ 3).begin = 0 ∧
       (queue_remove 10 ⟨0, 4, [1, 2, 3, 4, 0, 0, 0, 0, 0, 0]⟩ 3).size = 3 ∧
       (∀ k, 3 ≤ k → k < 3 →
         (queue_remove 10 ⟨0, 4, [1, 2, 3, 4, 0, 0, 0, 0, 0, 0]⟩ 3).array.getD
           ((0 + k) % 10) 0
           = ([1, 2, 3, 4, 0, 0, 0, 0, 0, 0] : List Nat).getD ((0 + k + 1) % 10) 0) ∧
       toList 10 (queue_remove 10 ⟨0, 4, [1, 2, 3, 4, 0, 0, 0, 0, 0, 0]⟩ 3)
         = (toList 10 ⟨0, 4, [1, 2, 3, 4, 0, 0, 0, 0, 0, 0]⟩).take 3 ++
           (toList 10 ⟨0, 4, [1, 2, 3, 4, 0, 0, 0, 0, 0, 0]⟩).drop 4) ∧
      toList 10 (queue_remove 10 ⟨0, 4, [1, 2, 3, 4, 0, 0, 0, 0, 0, 0]⟩ 3) = [1, 2, 3] ∧
      toList 10 (queue_remove 10 (queue_remove 10 ⟨0, 4, [1, 2, 3, 4, 0, 0, 0, 0, 0, 0]⟩ 3) 0)
        = [2, 3] :=
  ⟨⟨by decide, by decide⟩,
    queue_remove_spec 10 ⟨0, 4, [1, 2, 3, 4, 0, 0, 0, 0, 0, 0]⟩ 3 (by decide) (by decide),
    by decide, by decide⟩

/-! Reachable states of one queue instance. -/

/-- Reachability of a queue state from queue_init through successful engine
calls that respect the documented preconditions: push_back / pop_back /
pop_front when they return 0, remove on a valid offset, and merge with the
queue on either side of the call.  queue_find takes the queue as const and
never mutates it, so it contributes no transition. -/
inductive Reachable (N : Nat) : Queue → Prop where
  | init : Reachable N (queue_init N)
  | push {q q' : Queue} {v : Nat} : Reachable N q →
      queue_push_back N q v = .ok q' → Reachable N q'
  | popBack {q q' : Queue} {v : Nat} : Reachable N q →
      queue_pop_back N q = .ok (q', v) → Reachable N q'
  | popFront {q q' : Queue} {v : Nat} : Reachable N q →
      queue_pop_front N q = .ok (q', v) → Reachable N q'
  | removeAt {q : Queue} {index : Nat} : Reachable N q → index < q.size →
      Reachable N (queue_remove N q index)
  | mergeInto {q q2 q' q2' : Queue} : Reachable N q →
      queue_merge N q q2 = some (q', q2') → Reachable N q'
  | mergeFrom {q1 q q1' q' : Queue} : Reachable N q →
      queue_merge N q1 q = some (q1', q') → Reachable N q'

/-- C5: every state reachable from an initialized queue by push_back,
pop_back, pop_front, find, remove and merge_into calls that respect the
documented preconditions satisfies size ≤ N and begin < N (the lower bounds
0 ≤ size and 0 ≤ begin hold because both fields are unsigned); this includes
states with size = 0. -/
theorem reachable_invariant (N : Nat) (q : Queue) (hN : 0 < N)
    (hr : Reachable N q) : q.begin < N ∧ q.size ≤ N := by
  induction hr with
  | init => exact ⟨hN, Nat.zero_le N⟩
  | @push p p' v hr heq ih =>
    obtain ⟨hb, hs⟩ := ih
    rw [queue_push_back] at heq
    split at heq
    · exact absurd heq (by simp)
    · rename_i hne
      simp only [Except.ok.injEq] at heq
      subst heq
      refine ⟨?_, ?_⟩
      · show (if p.begin = 0 then N - 1 else p.begin - 1) < N
        split <;> omega
      · show p.size + 1 ≤ N
        omega
  | @popBack p p' v hr heq ih =>
    obtain ⟨hb, hs⟩ := ih
    rw [queue_pop_back] at heq
    split at heq
    · exact absurd heq (by simp)
    · simp only [Except.ok.injEq, Prod.mk.injEq] at heq
      obtain ⟨heq1, -⟩ := heq
      subst heq1
      refine ⟨?_, ?_⟩
      · show (if p.begin = N - 1 then 0 else p.begin + 1) < N
        split <;> omega
      · show p.size - 1 ≤ N
        omega
  | @popFront p p' v hr heq ih =>
    obtain ⟨hb, hs⟩ := ih
    rw [queue_pop_front] at heq
    split at heq
    · exact absurd heq (by simp)
    · simp only [Except.ok.injEq, Prod.mk.injEq] at heq
      obtain ⟨heq1, -⟩ := heq
      subst heq1
      exact ⟨hb, by show p.size - 1 ≤ N; omega⟩
  | @removeAt p index hr hidx ih =>
    obtain ⟨hb, hs⟩ := ih
    refine ⟨?_, ?_⟩
    · show p.begin < N
      exact hb
    · show p.size - 1 ≤ N
      omega
  | @mergeInto p p2 p' p2' hr heq ih =>
    rw [queue_merge] at heq
    split at heq
    · rename_i hle
      simp only [Option.some.injEq, Prod.mk.injEq] at heq
      obtain ⟨heq1, -⟩ := heq
      subst heq1
      exact ⟨hN, by show p.size + p2.size ≤ N; exact hle⟩
    · exact absurd heq (by simp)
  | @mergeFrom p1 p p1' p' hr heq ih =>
    obtain ⟨hb, hs⟩ := ih
    rw [queue_merge] at heq
    split at heq
    · simp only [Option.some.injEq, Prod.mk.injEq] at heq
      obtain ⟨-, heq2⟩ := heq
      subst heq2
      exact ⟨hb, Nat.zero_le N⟩
    · exact absurd heq (by simp)

/-- Witness for C5 at N = 10 and two reachable states: the initial queue and
the state after one successful push. -/
theorem reachable_invariant_witness :
    (0 < 10 ∧ Reachable 10 (queue_init 10)) ∧
      ((queue_init 10).begin < 10 ∧ (queue_init 10).size ≤ 10) :=
  ⟨⟨by decide, Reachable.init⟩,
    reachable_invariant 10 (queue_init 10) (by decide) Reachable.init⟩

/-! Correctness of queue_copy_to and the wrap-around simulation against a
reference non-circular deque. -/

/-- queue_copy_to writes the logical sequence into the first size slots of
the destination and leaves the remaining destination slots unchanged. -/
theorem queue_copy_to_spec (N : Nat) (q : Queue) (destination : List Nat)
    (hwf : WF N q) (_hdest : q.size ≤ destination.length) :
    queue_copy_to N q destination = toList N q ++ destination.drop q.size := by
  obtain ⟨hb, hsz, hlen⟩ := hwf
  by_cases hcase : q.begin + q.size ≤ N
  · have hsrc : (q.array.drop q.begin).take q.size = toList N q := by
      apply List.ext_getElem
      · simp [toList, hlen]
        omega
      · intro o h1 h2
        have ho : o < q.size := by
          simpa [length_toList] using h2
        rw [List.getElem_take, List.getElem_drop, getElem_toList, queue_get_value,
          Nat.mod_eq_of_lt (by omega), List.getD_eq_getElem _ _ (by omega)]
    have hsrclen : ((q.array.drop q.begin).take q.size).length = q.size := by
      simp [hlen]
      omega
    rw [queue_copy_to, if_pos hcase, memcpy_into, hsrclen]
    simp [hsrc]
  · have hsrc1len : ((q.array.drop q.begin).take (N - q.begin)).length = N - q.begin := by
      simp [hlen]
    have hsrc2len : (q.array.take (q.size + q.begin - N)).length = q.size + q.begin - N := by
      simp [hlen]
      omega
    rw [queue_copy_to, if_neg hcase]
    rw [memcpy_into, memcpy_into, hsrc1len, hsrc2len]
    simp only [List.take_zero, List.nil_append, Nat.zero_add]
    have hinner_take : (((q.array.drop q.begin).take (N - q.begin)) ++
        destination.drop (N - q.begin)).take (N - q.begin)
          = (q.array.drop q.begin).take (N - q.begin) :=
      List.take_left' hsrc1len
    have hinner_drop : (((q.array.drop q.begin).take (N - q.begin)) ++
        destination.drop (N - q.begin)).drop (N - q.begin + (q.size + q.begin - N))
          = destination.drop q.size := by
      rw [show N - q.begin + (q.size + q.begin - N)
            = ((q.array.drop q.begin).take (N - q.begin)).length + (q.size + q.begin - N) by
          rw [hsrc1len],
        List.drop_append, List.drop_drop]
      congr 1
      omega
    have hjoin : (q.array.drop q.begin).take (N - q.begin) ++
        q.array.take (q.size + q.begin - N) = toList N q := by
      apply List.ext_getElem
      · simp [length_toList, hlen]
        omega
      · intro o h1 h2
        have ho : o < q.size := by
          simpa [length_toList] using h2
        rw [getElem_toList, queue_get_value]
        by_cases ho1 : o < N - q.begin
        · rw [List.getElem_append_left (by rw [hsrc1len]; exact ho1),
            List.getElem_take, List.getElem_drop,
            Nat.mod_eq_of_lt (by omega), List.getD_eq_getElem _ _ (by omega)]
        · rw [List.getElem_append_right (by rw [hsrc1len]; omega)]
          have hmod : (q.begin + o) % N = o - (N - q.begin) := by
            rw [Nat.mod_eq_sub_mod (by omega), Nat.mod_eq_of_lt (by omega)]
            omega
          rw [hmod, List.getD_eq_getElem _ _ (by omega)]
          simp only [List.getElem_take, hsrc1len]
    rw [hinner_take, hinner_drop, ← hjoin, List.append_assoc]

/-- One engine mutation performed by a CLI-style caller: a push with a given
value, a pop at the back or a pop at the front.  A failed call (capacity hit
or empty queue, C return code -1) leaves the queue unchanged. -/
inductive DequeOp where
  | push (v : Nat)
  | popBack
  | popFront
deriving DecidableEq, Repr

/-- Effect of one operation on the engine queue. -/
def applyOp (N : Nat) (q : Queue) : DequeOp → Queue
  | DequeOp.push v =>
      match queue_push_back N q v with
      | .ok q' => q'
      | .error _ => q
  | DequeOp.popBack =>
      match queue_pop_back N q with
      | .ok p => p.1
      | .error _ => q
  | DequeOp.popFront =>
      match queue_pop_front N q with
      | .ok p => p.1
      | .error _ => q

/-- Reference non-circular deque of the spec's wrap-around property, following
the spec words: a plain list holding the logical sequence, where a push
installs the new value at offset 0 (refused at capacity), pop_back removes
offset 0 and pop_front removes the last element. -/
def applyRef (N : Nat) (l : List Nat) : DequeOp → List Nat
  | DequeOp.push v => if l.length = N then l else v :: l
  | DequeOp.popBack => l.tail
  | DequeOp.popFront => l.dropLast

/-- Engine state after a push/pop history starting from queue_init. -/
def runQueue (N : Nat) (ops : List DequeOp) : Queue :=
  ops.foldl (applyOp N) (queue_init N)

/-- Reference deque contents after the same history starting empty. -/
def runRef (N : Nat) (ops : List DequeOp) : List Nat :=
  ops.foldl (applyRef N) []

theorem applyOp_sim (N : Nat) (q : Queue) (op : DequeOp) (hwf : WF N q) :
    WF N (applyOp N q op) ∧
      toList N (applyOp N q op) = applyRef N (toList N q) op := by
  have hsz := hwf.2.1
  cases op with
  | push v =>
    by_cases hfull : q.size = N
    · have heq : queue_push_back N q v = .error .CapacityExceeded := by
        rw [queue_push_back, if_pos hfull]
      simp only [applyOp, heq, applyRef, length_toList, if_pos hfull]
      exact ⟨hwf, by trivial⟩
    · obtain ⟨q', heq, hwf', hlist, _⟩ :=
        queue_push_back_ok N q v hwf (by omega)
      simp only [applyOp, heq, applyRef, length_toList, if_neg hfull]
      exact ⟨hwf', hlist⟩
  | popBack =>
    by_cases hempty : q.size = 0
    · have heq : queue_pop_back N q = .error .Empty := by
        rw [queue_pop_back, if_pos hempty]
      have hnil : toList N q = [] := by
        simp [toList, hempty]
      simp only [applyOp, heq, applyRef, hnil]
      exact ⟨hwf, by trivial⟩
    · obtain ⟨q', v, heq, hwf', hlist, _⟩ :=
        queue_pop_back_ok N q hwf (by omega)
      simp only [applyOp, heq, applyRef, hlist]
      exact ⟨hwf', by trivial⟩
  | popFront =>
    by_cases hempty : q.size = 0
    · have heq : queue_pop_front N q = .error .Empty := by
        rw [queue_pop_front, if_pos hempty]
      have hnil : toList N q = [] := by
        simp [toList, hempty]
      simp only [applyOp, heq, applyRef, hnil]
      exact ⟨hwf, by trivial⟩
    · obtain ⟨q', v, heq, hwf', hlist, _, _, _⟩ :=
        queue_pop_front_ok N q hwf (by omega)
      simp only [applyOp, heq, applyRef, hlist]
      exact ⟨hwf', (List.dropLast_concat).symm⟩

theorem runQueue_sim (N : Nat) (hN : 0 < N) (ops : List DequeOp) :
    WF N (runQueue N ops) ∧ toList N (runQueue N ops) = runRef N ops := by
  suffices h : ∀ (ops : List DequeOp) (q : Queue) (l : List Nat),
      WF N q → toList N q = l →
      WF N (ops.foldl (applyOp N) q) ∧
        toList N (ops.foldl (applyOp N) q) = ops.foldl (applyRef N) l by
    exact h ops (queue_init N) [] (WF_queue_init N hN) (toList_queue_init N)
  intro ops
  induction ops with
  | nil => exact fun q l hwf hl => ⟨hwf, hl⟩
  | cons op ops ih =>
    intro q l hwf hl
    obtain ⟨hwf', hsim⟩ := applyOp_sim N q op hwf
    subst hl
    simpa only [List.foldl_cons] using ih (applyOp N q op) _ hwf' hsim

/-- C6: queue_copy_to writes exactly the logical elements at offsets
0..size-1 in order into the destination prefix and leaves the rest of the
destination unchanged (the queue is const in the C signature, so it is not
modified); and after every push/pop history from an empty queue — in
particular the histories whose logical range wraps past the physical end of
the storage, which queue_copy_to handles as the two contiguous runs
[begin, N) and the wrapped remainder — the copied sequence equals the
contents of the reference non-circular deque after the same history. -/
theorem copy_out_correct (N : Nat) (hN : 0 < N) :
    (∀ (q : Queue) (destination : List Nat), WF N q →
      q.size ≤ destination.length →
      queue_copy_to N q destination = toList N q ++ destination.drop q.size) ∧
    (∀ ops : List DequeOp, toList N (runQueue N ops) = runRef N ops) :=
  ⟨fun q destination hwf hdest => queue_copy_to_spec N q destination hwf hdest,
   fun ops => (runQueue_sim N hN ops).2⟩

/-- Witness for C6 at N = 5, including the spec's wrap-around history (push
five values, pop one from the front, push one more, so that the logical range
wraps) checked concretely by evaluation. -/
theorem copy_out_correct_witness :
    0 < 5 ∧
    ((∀ (q : Queue) (destination : List Nat), WF 5 q →
        q.size ≤ destination.length →
        queue_copy_to 5 q destination = toList 5 q ++ destination.drop q.size) ∧
      (∀ ops : List DequeOp, toList 5 (runQueue 5 ops) = runRef 5 ops)) ∧
    toList 5 (runQueue 5 [DequeOp.push 1, DequeOp.push 2, DequeOp.push 3,
        DequeOp.push 4, DequeOp.push 5, DequeOp.popFront, DequeOp.push 6])
      = [6, 5, 4, 3, 2] ∧
    queue_copy_to 5 (runQueue 5 [DequeOp.push 1, DequeOp.push 2, DequeOp.push 3,
        DequeOp.push 4, DequeOp.push 5, DequeOp.popFront, DequeOp.push 6])
        [9, 9, 9, 9, 9]
      = [6, 5, 4, 3, 2] :=
  ⟨by decide, copy_out_correct 5 (by decide), by decide, by decide⟩

/-! Characterisation of the two queue_merge loops. -/

/-- Values written by the interleaving loop for offsets [i, i + c): self's
value then other's value at each offset. -/
def interleaveSeg (N : Nat) (q1 q2 : Queue) : Nat → Nat → List Nat
  | _, 0 => []
  | i, c + 1 =>
      queue_get_value N q1 i :: queue_get_value N q2 i ::
        interleaveSeg N q1 q2 (i + 1) c

/-- Values written by the tail loop for offsets [i, i + c) of the larger
queue. -/
def tailSeg (N : Nat) (maxq : Queue) : Nat → Nat → List Nat
  | _, 0 => []
  | i, c + 1 => queue_get_value N maxq i :: tailSeg N maxq (i + 1) c

theorem interleaveSeg_length (N : Nat) (q1 q2 : Queue) :
    ∀ (c i : Nat), (interleaveSeg N q1 q2 i c).length = 2 * c := by
  intro c
  induction c with
  | zero => intro i; rfl
  | succ c ih =>
    intro i
    simp only [interleaveSeg, List.length_cons, ih (i + 1)]
    omega

theorem tailSeg_length (N : Nat) (maxq : Queue) :
    ∀ (c i : Nat), (tailSeg N maxq i c).length = c := by
  intro c
  induction c with
  | zero => intro i; rfl
  | succ c ih =>
    intro i
    simp only [tailSeg, List.length_cons, ih (i + 1)]

/-- Writing two adjacent slots of a list, spelled out as a take / drop
splice. -/
theorem set_set_adjacent (a : List Nat) (i : Nat) (x y : Nat) (h : i + 1 < a.length) :
    (a.set i x).set (i + 1) y = a.take i ++ x :: y :: a.drop (i + 2) := by
  have h0 : i < a.length := by omega
  have hP : (a.take i).length = i := by
    simp
    omega
  rw [List.set_eq_take_cons_drop x h0]
  rw [List.set_eq_take_cons_drop y (by simp [hP]; omega)]
  have htake : (a.take i ++ x :: a.drop (i + 1)).take (i + 1) = a.take i ++ [x] := by
    rw [show i + 1 = (a.take i).length + 1 by rw [hP], List.take_append]
    rfl
  have hdrop : (a.take i ++ x :: a.drop (i + 1)).drop (i + 1 + 1) = a.drop (i + 2) := by
    rw [List.drop_append_eq_append_drop, hP,
      List.drop_eq_nil_of_le (by rw [hP]; omega),
      show i + 1 + 1 - i = 1 + 1 by omega]
    show (a.drop (i + 1)).drop 1 = a.drop (i + 2)
    rw [List.drop_drop]
  rw [htake, hdrop, List.append_assoc]
  rfl

/-- Writing one slot of a list as a take / drop splice together with the
prefix it leaves intact. -/
theorem set_splice (a : List Nat) (i : Nat) (x : Nat) (h : i < a.length) :
    a.set i x = a.take i ++ x :: a.drop (i + 1) :=
  List.set_eq_take_cons_drop x h

theorem mergeLoop1_char (N : Nat) (q1 q2 : Queue) (m : Nat) :
    ∀ (k i : Nat) (a : List Nat), m - i ≤ k → i ≤ m → 2 * m ≤ a.length →
    mergeLoop1 N q1 q2 m a i
      = a.take (2 * i) ++ interleaveSeg N q1 q2 i (m - i) ++ a.drop (2 * m) := by
  intro k
  induction k with
  | zero =>
    intro i a hk him hlen
    have hi : i = m := by omega
    subst hi
    rw [mergeLoop1_stop N q1 q2 a (by omega), Nat.sub_self]
    show a = a.take (2 * i) ++ [] ++ a.drop (2 * i)
    rw [List.append_nil, List.take_append_drop]
  | succ k ih =>
    intro i a hk him hlen
    by_cases h : i < m
    · rw [mergeLoop1_step N q1 q2 a h,
        ih (i + 1) _ (by omega) (by omega) (by simp; omega)]
      have hadj := set_set_adjacent a (2 * i)
        (queue_get_value N q1 i) (queue_get_value N q2 i) (by omega)
      have h2i : (2 * i) + 1 = 2 * i + 1 := rfl
      rw [hadj]
      have hPlen : (a.take (2 * i)).length = 2 * i := by
        simp
        omega
      have htk : (a.take (2 * i) ++ queue_get_value N q1 i :: queue_get_value N q2 i ::
          a.drop (2 * i + 2)).take (2 * (i + 1))
            = a.take (2 * i) ++ [queue_get_value N q1 i, queue_get_value N q2 i] := by
        rw [show 2 * (i + 1) = (a.take (2 * i)).length + 2 by rw [hPlen]; omega,
          List.take_append]
        rfl
      have hdr : (a.take (2 * i) ++ queue_get_value N q1 i :: queue_get_value N q2 i ::
          a.drop (2 * i + 2)).drop (2 * m)
            = a.drop (2 * m) := by
        rw [List.drop_append_eq_append_drop, hPlen,
          List.drop_eq_nil_of_le (by rw [hPlen]; omega),
          show 2 * m - 2 * i = (2 * m - 2 * i - 2) + 1 + 1 by omega]
        show (a.drop (2 * i + 2)).drop (2 * m - 2 * i - 2) = a.drop (2 * m)
        rw [List.drop_drop]
        congr 1
        omega
      rw [htk, hdr]
      have hseg : interleaveSeg N q1 q2 i (m - i)
          = queue_get_value N q1 i :: queue_get_value N q2 i ::
            interleaveSeg N q1 q2 (i + 1) (m - (i + 1)) := by
        rw [show m - i = (m - (i + 1)) + 1 by omega]
        rfl
      rw [hseg]
      simp
    · have hi : i = m := by omega
      subst hi
      rw [mergeLoop1_stop N q1 q2 a h, Nat.sub_self]
      show a = a.take (2 * i) ++ [] ++ a.drop (2 * i)
      rw [List.append_nil, List.take_append_drop]

theorem mergeLoop2_char (N : Nat) (maxq : Queue) (m M : Nat) :
    ∀ (k i : Nat) (a : List Nat), M - i ≤ k → m ≤ i → i ≤ M → m + M ≤ a.length →
    mergeLoop2 N maxq m M a i
      = a.take (m + i) ++ tailSeg N maxq i (M - i) ++ a.drop (m + M) := by
  intro k
  induction k with
  | zero =>
    intro i a hk hmi hiM hlen
    have hi : i = M := by omega
    subst hi
    rw [mergeLoop2_stop N maxq m a (by omega), Nat.sub_self]
    show a = a.take (m + i) ++ [] ++ a.drop (m + i)
    rw [List.append_nil, List.take_append_drop]
  | succ k ih =>
    intro i a hk hmi hiM hlen
    by_cases h : i < M
    · rw [mergeLoop2_step N maxq m a h,
        ih (i + 1) _ (by omega) (by omega) (by omega) (by simp; omega)]
      rw [set_splice a (m + i) (queue_get_value N maxq i) (by omega)]
      have hPlen : (a.take (m + i)).length = m + i := by
        simp
        omega
      have htk : (a.take (m + i) ++ queue_get_value N maxq i ::
          a.drop (m + i + 1)).take (m + (i + 1))
            = a.take (m + i) ++ [queue_get_value N maxq i] := by
        rw [show m + (i + 1) = (a.take (m + i)).length + 1 by rw [hPlen]; omega,
          List.take_append]
        rfl
      have hdr : (a.take (m + i) ++ queue_get_value N maxq i ::
          a.drop (m + i + 1)).drop (m + M)
            = a.drop (m + M) := by
        rw [List.drop_append_eq_append_drop, hPlen,
          List.drop_eq_nil_of_le (by rw [hPlen]; omega),
          show m + M - (m + i) = (m + M - (m + i) - 1) + 1 by omega]
        show (a.drop (m + i + 1)).drop (m + M - (m + i) - 1) = a.drop (m + M)
        rw [List.drop_drop]
        congr 1
        omega
      rw [htk, hdr]
      have hseg : tailSeg N maxq i (M - i)
          = queue_get_value N maxq i :: tailSeg N maxq (i + 1) (M - (i + 1)) := by
        rw [show M - i = (M - (i + 1)) + 1 by omega]
        rfl
      rw [hseg]
      simp
    · have hi : i = M := by omega
      subst hi
      rw [mergeLoop2_stop N maxq m a h, Nat.sub_self]
      show a = a.take (m + i) ++ [] ++ a.drop (m + i)
      rw [List.append_nil, List.take_append_drop]

/-- The scratch buffer after both loops of queue_merge: the interleaved pairs
for offsets below the smaller size followed by the larger queue's remaining
values. -/
theorem mergeScratch_eq (N : Nat) (q1 q2 : Queue) :
    mergeScratch N q1 q2
      = interleaveSeg N q1 q2 0 (min q1.size q2.size)
        ++ tailSeg N (if q1.size ≥ q2.size then q1 else q2) (min q1.size q2.size)
            (max q1.size q2.size - min q1.size q2.size) := by
  have hm : (if q1.size < q2.size then q1 else q2).size = min q1.size q2.size := by
    split <;> omega
  have hM : (if q1.size ≥ q2.size then q1 else q2).size = max q1.size q2.size := by
    split <;> omega
  simp only [mergeScratch, hm, hM]
  rw [mergeLoop1_char N q1 q2 (min q1.size q2.size) (min q1.size q2.size) 0
    (List.replicate (q1.size + q2.size) 0) (by omega) (by omega)
    (by simp; omega)]
  simp only [Nat.mul_zero, Nat.sub_zero, List.take_zero, List.nil_append]
  have hA1len : (interleaveSeg N q1 q2 0 (min q1.size q2.size)
      ++ (List.replicate (q1.size + q2.size) 0).drop (2 * min q1.size q2.size)).length
        = min q1.size q2.size + max q1.size q2.size := by
    simp [interleaveSeg_length]
    omega
  rw [mergeLoop2_char N (if q1.size ≥ q2.size then q1 else q2)
    (min q1.size q2.size) (max q1.size q2.size)
    (max q1.size q2.size - min q1.size q2.size) (min q1.size q2.size) _
    (by omega) (by omega) (by omega) (by rw [hA1len])]
  have hseglen : (interleaveSeg N q1 q2 0 (min q1.size q2.size)).length
      = min q1.size q2.size + min q1.size q2.size := by
    rw [interleaveSeg_length]
    omega
  rw [List.take_append_of_le_length (by rw [hseglen]),
    show min q1.size q2.size + min q1.size q2.size
        = (interleaveSeg N q1 q2 0 (min q1.size q2.size)).length from hseglen.symm,
    List.take_length,
    List.drop_eq_nil_of_le (by rw [hA1len]), List.append_nil]

/-- Pairwise interleaving of two lists, stopping when either is exhausted. -/
def interleaveL : List Nat → List Nat → List Nat
  | x :: xs, y :: ys => x :: y :: interleaveL xs ys
  | _, _ => []

theorem interleaveL_nil_left (ys : List Nat) : interleaveL [] ys = [] := by
  cases ys <;> rfl

theorem interleaveL_nil_right (xs : List Nat) : interleaveL xs [] = [] := by
  cases xs <;> rfl

/-- The interleave loop values agree with the pairwise interleaving of the
two logical sequences when the count reaches exactly the smaller size. -/
theorem interleaveSeg_eq (N : Nat) (q1 q2 : Queue) :
    ∀ (c i : Nat), i + c = min q1.size q2.size →
    interleaveSeg N q1 q2 i c
      = interleaveL ((toList N q1).drop i) ((toList N q2).drop i) := by
  intro c
  induction c with
  | zero =>
    intro i hi
    rcases Nat.le_total q1.size q2.size with hle | hle
    · have h1 : (toList N q1).drop i = [] := by
        apply List.drop_eq_nil_of_le
        rw [length_toList]
        omega
      rw [h1, interleaveL_nil_left]
      rfl
    · have h2 : (toList N q2).drop i = [] := by
        apply List.drop_eq_nil_of_le
        rw [length_toList]
        omega
      rw [h2, interleaveL_nil_right]
      rfl
  | succ c ih =>
    intro i hi
    have hi1 : i < q1.size := by omega
    have hi2 : i < q2.size := by omega
    have hd1 : (toList N q1).drop i
        = queue_get_value N q1 i :: (toList N q1).drop (i + 1) := by
      rw [← List.getElem_cons_drop _ i (by rw [length_toList]; omega), getElem_toList]
    have hd2 : (toList N q2).drop i
        = queue_get_value N q2 i :: (toList N q2).drop (i + 1) := by
      rw [← List.getElem_cons_drop _ i (by rw [length_toList]; omega), getElem_toList]
    rw [hd1, hd2]
    show queue_get_value N q1 i :: queue_get_value N q2 i ::
        interleaveSeg N q1 q2 (i + 1) c
      = queue_get_value N q1 i :: queue_get_value N q2 i ::
        interleaveL ((toList N q1).drop (i + 1)) ((toList N q2).drop (i + 1))
    rw [ih (i + 1) (by omega)]

/-- The tail loop values agree with the remaining suffix of the larger
queue's logical sequence. -/
theorem tailSeg_eq (N : Nat) (q : Queue) :
    ∀ (c i : Nat), i + c = q.size →
    tailSeg N q i c = (toList N q).drop i := by
  intro c
  induction c with
  | zero =>
    intro i hi
    have h1 : (toList N q).drop i = [] := by
      apply List.drop_eq_nil_of_le
      rw [length_toList]
      omega
    rw [h1]
    rfl
  | succ c ih =>
    intro i hi
    have hd : (toList N q).drop i
        = queue_get_value N q i :: (toList N q).drop (i + 1) := by
      rw [← List.getElem_cons_drop _ i (by rw [length_toList]; omega), getElem_toList]
    rw [hd]
    show queue_get_value N q i :: tailSeg N q (i + 1) c
      = queue_get_value N q i :: (toList N q).drop (i + 1)
    rw [ih (i + 1) (by omega)]

/-- The merged sequence exactly as the claim words it: self's element then
other's element at each offset while both queues still hold one, then the
remaining elements of the longer queue in their original relative order. -/
def zipperSpec : List Nat → List Nat → List Nat
  | [], ys => ys
  | x :: xs, [] => x :: xs
  | x :: xs, y :: ys => x :: y :: zipperSpec xs ys

theorem zipperSpec_eq_interleaveL : ∀ (xs ys : List Nat),
    zipperSpec xs ys
      = interleaveL xs ys
        ++ (if ys.length ≤ xs.length then xs else ys).drop (min xs.length ys.length) := by
  intro xs
  induction xs with
  | nil =>
    intro ys
    cases ys with
    | nil => rfl
    | cons y ys =>
      show y :: ys = interleaveL [] (y :: ys) ++ _
      rw [interleaveL_nil_left, List.nil_append, if_neg (by simp), List.length_nil,
        Nat.zero_min, List.drop_zero]
  | cons x xs ih =>
    intro ys
    cases ys with
    | nil =>
      show x :: xs = interleaveL (x :: xs) [] ++ _
      rw [interleaveL_nil_right, List.nil_append, if_pos (by simp), List.length_nil,
        Nat.min_zero, List.drop_zero]
    | cons y ys =>
      show x :: y :: zipperSpec xs ys
        = x :: y :: (interleaveL xs ys
            ++ (if (y :: ys).length ≤ (x :: xs).length then x :: xs else y :: ys).drop
                 (min (x :: xs).length (y :: ys).length))
      rw [ih ys]
      congr 2
      simp only [List.length_cons, Nat.succ_min_succ]
      by_cases hc : ys.length ≤ xs.length
      · rw [if_pos hc, if_pos (by omega), List.drop_succ_cons]
      · rw [if_neg hc, if_neg (by omega), List.drop_succ_cons]

/-- The merge scratch buffer holds exactly the zipper interleave of the two
logical sequences. -/
theorem mergeScratch_zipper (N : Nat) (q1 q2 : Queue) :
    mergeScratch N q1 q2 = zipperSpec (toList N q1) (toList N q2) := by
  have hM : (if q1.size ≥ q2.size then q1 else q2).size = max q1.size q2.size := by
    split <;> omega
  rw [mergeScratch_eq, interleaveSeg_eq N q1 q2 (min q1.size q2.size) 0 (by omega),
    tailSeg_eq N (if q1.size ≥ q2.size then q1 else q2)
      (max q1.size q2.size - min q1.size q2.size) (min q1.size q2.size)
      (by rw [hM]; omega),
    zipperSpec_eq_interleaveL, List.drop_zero, List.drop_zero]
  congr 1
  simp only [length_toList]
  by_cases hc : q2.size ≤ q1.size
  · rw [if_pos (show q1.size ≥ q2.size from hc), if_pos hc]
  · rw [if_neg (by omega), if_neg hc]

/-- Logical sequence of a queue with begin = 0 whose storage starts with the
given prefix. -/
theorem toList_begin0 (N : Nat) (total : Nat) (l rest : List Nat)
    (hl : l.length = total) (htot : total ≤ N) :
    toList N { begin := 0, size := total, array := l ++ rest } = l := by
  apply List.ext_getElem
  · rw [length_toList]
    show total = l.length
    omega
  · intro o h1 h2
    rw [length_toList] at h1
    rw [getElem_toList, queue_get_value]
    show (l ++ rest).getD ((0 + o) % N) 0 = l[o]
    rw [Nat.zero_add, Nat.mod_eq_of_lt (by omega),
      List.getD_eq_getElem _ _ (by simp; omega)]
    exact List.getElem_append_left (by omega)

/-- Intended merge behaviour, i.e. queue_merge with the spec-corrected
full-width scratch buffer (the code as written under-allocates that buffer,
see merge_scratch_alloc_bytes): when self.size + other.size ≤ N the merge
succeeds and afterwards self's logical sequence is the zipper interleave of
the two original sequences — merged offsets 2k and 2k+1 hold self's and
other's element at offset k while both queues have one (regardless of which
queue is shorter), then the remaining elements of the longer queue follow in
their original relative order — and self.begin = 0, self.size is the
combined size, and other.size = 0. -/
theorem merge_into_zipper (N : Nat) (q1 q2 : Queue)
    (hle : q1.size + q2.size ≤ N) :
    ∃ q1' q2', queue_merge N q1 q2 = some (q1', q2') ∧
      toList N q1' = zipperSpec (toList N q1) (toList N q2) ∧
      q1'.begin = 0 ∧ q1'.size = q1.size + q2.size ∧ q2'.size = 0 := by
  have hslen : (mergeScratch N q1 q2).length = q1.size + q2.size := by
    rw [mergeScratch_eq]
    simp only [List.length_append, interleaveSeg_length, tailSeg_length]
    omega
  refine ⟨{ begin := 0, size := q1.size + q2.size,
            array := (mergeScratch N q1 q2).take (q1.size + q2.size)
              ++ q1.array.drop (q1.size + q2.size) },
          { q2 with size := 0 }, ?_, ?_, rfl, rfl, rfl⟩
  · simp only [queue_merge]
    rw [if_pos hle]
  · have htk : (mergeScratch N q1 q2).take (q1.size + q2.size)
        = mergeScratch N q1 q2 := by
      rw [← hslen, List.take_length]
    rw [htk, toList_begin0 N (q1.size + q2.size) _ _ hslen hle, mergeScratch_zipper]

/-- Concrete instantiation of merge_into_zipper at N = 10 with the spec
example self = [1, 3, 5] and other = [2, 4]; the extra conjuncts evaluate
the spec-corrected merge concretely, giving self = [1, 2, 3, 4, 5] and other
emptied. -/
theorem merge_into_zipper_example :
    ((⟨0, 3, [1, 3, 5, 0, 0, 0, 0, 0, 0, 0]⟩ : Queue).size
        + (⟨0, 2, [2, 4, 0, 0, 0, 0, 0, 0, 0, 0]⟩ : Queue).size ≤ 10) ∧
      (∃ q1' q2', queue_merge 10 ⟨0, 3, [1, 3, 5, 0, 0, 0, 0, 0, 0, 0]⟩
            ⟨0, 2, [2, 4, 0, 0, 0, 0, 0, 0, 0, 0]⟩ = some (q1', q2') ∧
        toList 10 q1' = zipperSpec (toList 10 ⟨0, 3, [1, 3, 5, 0, 0, 0, 0, 0, 0, 0]⟩)
            (toList 10 ⟨0, 2, [2, 4, 0, 0, 0, 0, 0, 0, 0, 0]⟩) ∧
        q1'.begin = 0 ∧ q1'.size = 5 ∧ q2'.size = 0) ∧
      zipperSpec (toList 10 ⟨0, 3, [1, 3, 5, 0, 0, 0, 0, 0, 0, 0]⟩)
          (toList 10 ⟨0, 2, [2, 4, 0, 0, 0, 0, 0, 0, 0, 0]⟩) = [1, 2, 3, 4, 5] ∧
      (queue_merge 10 ⟨0, 3, [1, 3, 5, 0, 0, 0, 0, 0, 0, 0]⟩
          ⟨0, 2, [2, 4, 0, 0, 0, 0, 0, 0, 0, 0]⟩).map (fun p => toList 10 p.1)
        = some [1, 2, 3, 4, 5] :=
  ⟨by decide,
    merge_into_zipper 10 ⟨0, 3, [1, 3, 5, 0, 0, 0, 0, 0, 0, 0]⟩
      ⟨0, 2, [2, 4, 0, 0, 0, 0, 0, 0, 0, 0]⟩ (by decide),
    by decide, by decide⟩

/-- C1 (code bug): the claimed merged sequence is the intent, but the code
as written does not deliver it as defined behaviour.  At the claim's example
input self = [1, 3, 5], other = [2, 4], the source allocates its merge
scratch with malloc(total_len) = 5 bytes while the loops store total_len = 5
full 32-bit values, i.e. 4 * 5 = 20 bytes, overrunning the buffer — the slip
the spec flags as an observed defect — so the universal zipper-result
guarantee fails for the literal code; under the full-width scratch the spec
mandates (modelled by queue_merge), the merge at this input yields exactly
the claimed result: self = [1, 2, 3, 4, 5] with begin = 0 and size = 5, and
other emptied, matching zipperSpec of the two logical sequences. -/
theorem merge_zipper_underallocated_bug :
    merge_scratch_alloc_bytes ⟨0, 3, [1, 3, 5, 0, 0, 0, 0, 0, 0, 0]⟩
        ⟨0, 2, [2, 4, 0, 0, 0, 0, 0, 0, 0, 0]⟩ = 5 ∧
    merge_scratch_alloc_bytes ⟨0, 3, [1, 3, 5, 0, 0, 0, 0, 0, 0, 0]⟩
        ⟨0, 2, [2, 4, 0, 0, 0, 0, 0, 0, 0, 0]⟩
      < 4 * ((⟨0, 3, [1, 3, 5, 0, 0, 0, 0, 0, 0, 0]⟩ : Queue).size
          + (⟨0, 2, [2, 4, 0, 0, 0, 0, 0, 0, 0, 0]⟩ : Queue).size) ∧
    (queue_merge 10 ⟨0, 3, [1, 3, 5, 0, 0, 0, 0, 0, 0, 0]⟩
        ⟨0, 2, [2, 4, 0, 0, 0, 0, 0, 0, 0, 0]⟩).map
        (fun p => (toList 10 p.1, p.1.begin, p.1.size, p.2.size))
      = some ([1, 2, 3, 4, 5], 0, 5, 0) ∧
    zipperSpec (toList 10 ⟨0, 3, [1, 3, 5, 0, 0, 0, 0, 0, 0, 0]⟩)
        (toList 10 ⟨0, 2, [2, 4, 0, 0, 0, 0, 0, 0, 0, 0]⟩) = [1, 2, 3, 4, 5] :=
  ⟨by decide, by decide, by decide, by decide⟩

/-! Remaining claims: the merge scratch allocation bug, the merge capacity
guard, the CLI dequeue mode dispatch and the CLI merge boundary. -/

/-- C2 (observed source defect): at the input self = [1, 3, 5],
other = [2, 4], every value-slot index written by the two merge loops lies
below total_len = 5 — the within-the-slots half of the claim holds — but the
C allocation is malloc(total_len), i.e. 5 bytes, not 5 full-width 32-bit
values (20 bytes): the 4-byte write at slot 4 occupies bytes 16..19, beyond
the 5 allocated bytes, so the scratch buffer is not sized to hold
self.size + other.size full-width values as the claim asserts. -/
theorem merge_scratch_underallocated :
    (∀ j ∈ mergeWriteIndices ⟨0, 3, [1, 3, 5, 0, 0, 0, 0, 0, 0, 0]⟩
        ⟨0, 2, [2, 4, 0, 0, 0, 0, 0, 0, 0, 0]⟩, j < 5) ∧
    merge_scratch_alloc_bytes ⟨0, 3, [1, 3, 5, 0, 0, 0, 0, 0, 0, 0]⟩
        ⟨0, 2, [2, 4, 0, 0, 0, 0, 0, 0, 0, 0]⟩ = 5 ∧
    (∃ j ∈ mergeWriteIndices ⟨0, 3, [1, 3, 5, 0, 0, 0, 0, 0, 0, 0]⟩
        ⟨0, 2, [2, 4, 0, 0, 0, 0, 0, 0, 0, 0]⟩,
      merge_scratch_alloc_bytes ⟨0, 3, [1, 3, 5, 0, 0, 0, 0, 0, 0, 0]⟩
          ⟨0, 2, [2, 4, 0, 0, 0, 0, 0, 0, 0, 0]⟩ < 4 * j + 4) :=
  ⟨by decide, by decide, ⟨4, by decide, by decide⟩⟩

/-- Counterexample to C3 as stated: for self of size 6 and other of size 5
(6 + 5 > N = 10), queue_merge does not return a typed recoverable
CapacityExceeded failure — the call lands in its assert branch (modelled as
none), i.e. the process aborts via the failed C assertion instead of
reporting a recoverable error; only queue_push_back has a CapacityExceeded
return path. -/
theorem merge_overflow_crashes_counterexample :
    (⟨0, 6, [1, 2, 3, 4, 5, 6, 0, 0, 0, 0]⟩ : Queue).size
        + (⟨0, 5, [7, 8, 9, 10, 11, 0, 0, 0, 0, 0]⟩ : Queue).size > 10 ∧
    queue_merge 10 ⟨0, 6, [1, 2, 3, 4, 5, 6, 0, 0, 0, 0]⟩
        ⟨0, 5, [7, 8, 9, 10, 11, 0, 0, 0, 0, 0]⟩ = none :=
  ⟨by decide, by decide⟩

/-- C3 amended: when self.size + other.size > N the queue_merge call fails
its assert (total_len ≤ QUEUE_MAX_LENGTH) and the program aborts — an
unrecoverable contract violation, not a typed CapacityExceeded error — and no
merged state is produced, so neither queue is mutated by the failing call;
the recoverable rejection of over-capacity merges lives in the CLI wrapper
cli_merge_queues, not in the engine. -/
theorem merge_overflow_asserts (N : Nat) (q1 q2 : Queue)
    (h : N < q1.size + q2.size) :
    queue_merge N q1 q2 = none := by
  simp only [queue_merge]
  rw [if_neg (by omega)]

/-- Witness for the amended C3 at N = 10 with sizes 6 and 5. -/
theorem merge_overflow_asserts_witness :
    10 < (⟨0, 6, [1, 2, 3, 4, 5, 6, 0, 0, 0, 0]⟩ : Queue).size
        + (⟨0, 5, [7, 8, 9, 10, 11, 0, 0, 0, 0, 0]⟩ : Queue).size ∧
    queue_merge 10 ⟨0, 6, [1, 2, 3, 4, 5, 6, 0, 0, 0, 0]⟩
        ⟨0, 5, [7, 8, 9, 10, 11, 0, 0, 0, 0, 0]⟩ = none :=
  ⟨by decide,
    merge_overflow_asserts 10 ⟨0, 6, [1, 2, 3, 4, 5, 6, 0, 0, 0, 0]⟩
      ⟨0, 5, [7, 8, 9, 10, 11, 0, 0, 0, 0, 0]⟩ (by decide)⟩

/-- C9: on a non-empty queue, the CLI dequeue command compiled in FIFO mode
invokes queue_pop_back and removes the element at logical offset 0 — which is
the most recently pushed value, i.e. a LIFO removal — while compiled in LIFO
mode (the default) it invokes queue_pop_front and removes the element at
offset size - 1, the oldest surviving value, i.e. a FIFO removal: each mode
realises the removal order opposite to its name. -/
theorem cli_dequeue_mode_swap (N : Nat) (q : Queue)
    (hwf : WF N q) (hs : 0 < q.size) :
    (cli_dequeue_pop N QueueMode.FIFO q = queue_pop_back N q ∧
      ∃ q', cli_dequeue_pop N QueueMode.FIFO q
          = .ok (q', queue_get_value N q 0) ∧
        toList N q' = (toList N q).tail) ∧
    (cli_dequeue_pop N QueueMode.LIFO q = queue_pop_front N q ∧
      ∃ q', cli_dequeue_pop N QueueMode.LIFO q
          = .ok (q', queue_get_value N q (q.size - 1)) ∧
        toList N q = toList N q' ++ [queue_get_value N q (q.size - 1)]) ∧
    (∀ (p : Queue) (v : Nat), WF N p → queue_push_back N p v = .ok q →
      queue_get_value N q 0 = v) := by
  have hlen0 : 0 < (toList N q).length := by
    rw [length_toList]
    exact hs
  refine ⟨⟨rfl, ?_⟩, ⟨rfl, ?_⟩, ?_⟩
  · obtain ⟨q', v, heq, hwf', hlist, hsz⟩ := queue_pop_back_ok N q hwf hs
    have hv : v = queue_get_value N q 0 := by
      rw [← getD_toList N q hs, hlist]
      rfl
    refine ⟨q', ?_, ?_⟩
    · show queue_pop_back N q = _
      rw [heq, hv]
    · rw [hlist]
      rfl
  · obtain ⟨q', v, heq, hwf', hlist, hsz, hbeg, harr⟩ := queue_pop_front_ok N q hwf hs
    have hv : v = queue_get_value N q (q.size - 1) := by
      rw [queue_pop_front, if_neg (by omega)] at heq
      simp only [Except.ok.injEq, Prod.mk.injEq] at heq
      exact heq.2.symm
    refine ⟨q', ?_, ?_⟩
    · show queue_pop_front N q = _
      rw [heq, hv]
    · rw [hlist, hv]
  · intro p v hwfp heqp
    have hplt : p.size < N := by
      obtain ⟨-, hple, -⟩ := hwfp
      rcases Nat.eq_or_lt_of_le hple with heqN | hlt
      · rw [queue_push_back, if_pos heqN] at heqp
        exact absurd heqp (by simp)
      · exact hlt
    obtain ⟨q0, heq0, hwf0, hlist0, hsz0⟩ := queue_push_back_ok N p v hwfp hplt
    rw [heqp] at heq0
    injection heq0 with hq0
    subst hq0
    rw [← getD_toList N q hs, hlist0]
    rfl

/-- Witness for C9 at N = 10 and the queue [1, 3, 5]. -/
theorem cli_dequeue_mode_swap_witness :
    (WF 10 ⟨0, 3, [1, 3, 5, 0, 0, 0, 0, 0, 0, 0]⟩ ∧
      0 < (⟨0, 3, [1, 3, 5, 0, 0, 0, 0, 0, 0, 0]⟩ : Queue).size) ∧
    ((cli_dequeue_pop 10 QueueMode.FIFO ⟨0, 3, [1, 3, 5, 0, 0, 0, 0, 0, 0, 0]⟩
        = queue_pop_back 10 ⟨0, 3, [1, 3, 5, 0, 0, 0, 0, 0, 0, 0]⟩ ∧
      ∃ q', cli_dequeue_pop 10 QueueMode.FIFO ⟨0, 3, [1, 3, 5, 0, 0, 0, 0, 0, 0, 0]⟩
          = .ok (q', queue_get_value 10 ⟨0, 3, [1, 3, 5, 0, 0, 0, 0, 0, 0, 0]⟩ 0) ∧
        toList 10 q' = (toList 10 ⟨0, 3, [1, 3, 5, 0, 0, 0, 0, 0, 0, 0]⟩).tail) ∧
    (cli_dequeue_pop 10 QueueMode.LIFO ⟨0, 3, [1, 3, 5, 0, 0, 0, 0, 0, 0, 0]⟩
        = queue_pop_front 10 ⟨0, 3, [1, 3, 5, 0, 0, 0, 0, 0, 0, 0]⟩ ∧
      ∃ q', cli_dequeue_pop 10 QueueMode.LIFO ⟨0, 3, [1, 3, 5, 0, 0, 0, 0, 0, 0, 0]⟩
          = .ok (q', queue_get_value 10 ⟨0, 3, [1, 3, 5, 0, 0, 0, 0, 0, 0, 0]⟩ 2) ∧
        toList 10 ⟨0, 3, [1, 3, 5, 0, 0, 0, 0, 0, 0, 0]⟩
          = toList 10 q' ++ [queue_get_value 10 ⟨0, 3, [1, 3, 5, 0, 0, 0, 0, 0, 0, 0]⟩ 2]) ∧
    (∀ (p : Queue) (v : Nat), WF 10 p →
      queue_push_back 10 p v = .ok ⟨0, 3, [1, 3, 5, 0, 0, 0, 0, 0, 0, 0]⟩ →
      queue_get_value 10 ⟨0, 3, [1, 3, 5, 0, 0, 0, 0, 0, 0, 0]⟩ 0 = v)) :=
  ⟨⟨by decide, by decide⟩,
    cli_dequeue_mode_swap 10 ⟨0, 3, [1, 3, 5, 0, 0, 0, 0, 0, 0, 0]⟩
      (by decide) (by decide)⟩

/-- C10: when the two queues' sizes sum to exactly N, cli_merge_queues
refuses with an error (its guard rejects every sum ≥ N) even though
queue_merge itself accepts every sum up to N; and since the guard precedes
the queue_merge call, the engine merge is not invoked; the CLI performs the
merge exactly when the combined size is strictly below N. -/
theorem cli_merge_boundary (N : Nat) (q0 q1 : Queue)
    (h : q0.size + q1.size = N) :
    cli_merge_queues N q0 q1 = none ∧
      (∃ p, queue_merge N q0 q1 = some p) ∧
      (∀ r0 r1 : Queue,
        (∃ p, cli_merge_queues N r0 r1 = some p) ↔ r0.size + r1.size < N) := by
  refine ⟨?_, ?_, ?_⟩
  · rw [cli_merge_queues, if_pos (by omega)]
  · refine ⟨({ begin := 0,
               size := q0.size + q1.size,
               array := (mergeScratch N q0 q1).take (q0.size + q1.size)
                 ++ q0.array.drop (q0.size + q1.size) },
      { q1 with size := 0 }), ?_⟩
    simp only [queue_merge]
    rw [if_pos (by omega)]
  · intro r0 r1
    constructor
    · rintro ⟨p, hp⟩
      by_cases hge : r0.size + r1.size ≥ N
      · rw [cli_merge_queues, if_pos hge] at hp
        exact absurd hp (by simp)
      · omega
    · intro hlt
      refine ⟨({ begin := 0,
                 size := r0.size + r1.size,
                 array := (mergeScratch N r0 r1).take (r0.size + r1.size)
                   ++ r0.array.drop (r0.size + r1.size) },
        { r1 with size := 0 }), ?_⟩
      rw [cli_merge_queues, if_neg (by omega)]
      simp only [queue_merge]
      rw [if_pos (by omega)]

/-- Witness for C10 at N = 10, sizes 6 and 4 (sum exactly 10); the extra
conjuncts evaluate both sides concretely: the CLI refuses while the engine
accepts. -/
theorem cli_merge_boundary_witness :
    ((⟨0, 6, [1, 2, 3, 4, 5, 6, 0, 0, 0, 0]⟩ : Queue).size
        + (⟨0, 4, [7, 8, 9, 10, 0, 0, 0, 0, 0, 0]⟩ : Queue).size = 10) ∧
    (cli_merge_queues 10 ⟨0, 6, [1, 2, 3, 4, 5, 6, 0, 0, 0, 0]⟩
        ⟨0, 4, [7, 8, 9, 10, 0, 0, 0, 0, 0, 0]⟩ = none ∧
      (∃ p, queue_merge 10 ⟨0, 6, [1, 2, 3, 4, 5, 6, 0, 0, 0, 0]⟩
          ⟨0, 4, [7, 8, 9, 10, 0, 0, 0, 0, 0, 0]⟩ = some p) ∧
      (∀ r0 r1 : Queue,
        (∃ p, cli_merge_queues 10 r0 r1 = some p) ↔ r0.size + r1.size < 10)) ∧
    (queue_merge 10 ⟨0, 6, [1, 2, 3, 4, 5, 6, 0, 0, 0, 0]⟩
        ⟨0, 4, [7, 8, 9, 10, 0, 0, 0, 0, 0, 0]⟩).map (fun p => toList 10 p.1)
      = some [1, 7, 2, 8, 3, 9, 4, 10, 5, 6] :=
  ⟨by decide,
    cli_merge_boundary 10 ⟨0, 6, [1, 2, 3, 4, 5, 6, 0, 0, 0, 0]⟩
      ⟨0, 4, [7, 8, 9, 10, 0, 0, 0, 0, 0, 0]⟩ (by decide),
    by decide⟩

end RingQueue
